import Mathlib

/-!
Verification of the rein orchestrator (src/rein) against its specification.

Shallow embedding: the Python data classes and the pure/stateful fragments of
the orchestrator are translated to Lean definitions; machine floats that are
only stored and passed through are modelled as rationals; SQLite tables and
Python dicts are modelled as association lists or functions.
-/

namespace Rein

/-- Embeds `rein/models.py` lines 8-27, dataclass `Process`.
Python floats (`start_time`, `cpu_percent`, `memory_mb`) are modelled as `Rat`
(they are only stored and compared, never rounded).  The dynamically added
attribute `_previous_status` (set by `pause_single`) is modelled as the extra
optional field `prev_status`; it is `none` exactly when the Python object does
not have the attribute.  `next_spec` (Python `Any`: a string or a list of
condition dicts) is not consulted by any theorem below and is modelled as an
optional string. -/
structure Process where
  pid : Option Int
  name : String
  status : String
  start_time : Rat
  command : String
  uid : String := ""
  exit_code : Option Int := none
  cpu_percent : Rat := 0
  memory_mb : Rat := 0
  depends_on : List String := []
  progress : Int := 0
  phase : Int := 0
  blocking_pause : Bool := true
  agent : String := ""
  next_spec : Option String := none
  max_runs : Nat := 1
  run_count : Nat := 0
  prev_status : Option String := none
  deriving Repr, DecidableEq

/-! ## State store (`rein/state.py`) -/

/-- One row of the SQLite table `processes` created by `ReinState._init_db`
(`rein/state.py` lines 29-44).  `blocking_pause` is stored as an INTEGER
(`int(proc.blocking_pause)` in `save_process`), `updated_at` is `time.time()`
at save time. -/
structure DBRow where
  name : String
  pid : Option Int
  status : String
  start_time : Rat
  command : String
  exit_code : Option Int
  cpu_percent : Rat
  memory_mb : Rat
  progress : Int
  phase : Int
  blocking_pause : Int
  updated_at : Rat
  deriving Repr, DecidableEq

/-- The table keyed by `name` (PRIMARY KEY).  A `REPLACE INTO` keyed lookup
structure: `none` means no row for that name. -/
def DB := String → Option DBRow

/-- Embeds `ReinState.save_process` (`rein/state.py` lines 49-59):
`REPLACE INTO processes` of the eleven persisted columns plus `updated_at`.
`now` stands for `time.time()`. -/
def save_process (db : DB) (proc : Process) (now : Rat) : DB :=
  fun n =>
    if n = proc.name then
      some { name := proc.name, pid := proc.pid, status := proc.status,
             start_time := proc.start_time, command := proc.command,
             exit_code := proc.exit_code, cpu_percent := proc.cpu_percent,
             memory_mb := proc.memory_mb, progress := proc.progress,
             phase := proc.phase, blocking_pause := (if proc.blocking_pause then 1 else 0),
             updated_at := now }
    else db n

/-- Embeds the row-to-`Process` reconstruction shared by
`ReinState.get_all_processes` and `ReinState.get_process`
(`rein/state.py` lines 71-77 and 91-97): only the eleven selected columns are
restored, every other dataclass field keeps its default
(`uid=""`, `exit_code` as stored, `depends_on=[]`, `agent=""`,
`next_spec=None`, `max_runs=1`, `run_count=0`);
`blocking_pause` comes back through `bool(row[10])`. -/
def rowToProcess (r : DBRow) : Process :=
  { name := r.name, pid := r.pid, status := r.status,
    start_time := r.start_time, command := r.command,
    exit_code := r.exit_code, cpu_percent := r.cpu_percent,
    memory_mb := r.memory_mb, progress := r.progress,
    phase := r.phase, blocking_pause := (r.blocking_pause ≠ 0) }

/-- Embeds `ReinState.get_process` (`rein/state.py` lines 81-98). -/
def get_process (db : DB) (name : String) : Option Process :=
  (db name).map rowToProcess

/-! ## Finalization status (`rein/orchestrator.py`, `_finalize_run`) -/

/-- Embeds the status computation of `_finalize_run`
(`rein/orchestrator.py` lines 1345-1346 and 1389):
`failed = sum(1 for p in self.processes.values() if p.status == "failed")`,
then `status = "completed" if failed == 0 else "failed"`. -/
def finalizeStatus (procs : List Process) : String :=
  if (procs.countP (fun p => p.status = "failed")) = 0 then "completed" else "failed"

/-! ## Main-loop exit condition (`run_workflow` / `all_completed`) -/

/-- Embeds `ProcessManager.all_completed` (`rein/orchestrator.py` lines
1634-1637): `all(p.status in ("done", "failed") for p in self.processes.values())`. -/
def all_completed (procs : List Process) : Bool :=
  procs.all (fun p => p.status = "done" || p.status = "failed")

/-- Embeds the normal-exit check of the `run_workflow` main loop
(`rein/orchestrator.py` line 1330):
`if not pending and self.all_completed() and not self.next_queue: break`. -/
def loopExitCondition (pending : List String) (procs : List Process)
    (nextQueue : List String) : Bool :=
  pending.isEmpty && all_completed procs && nextQueue.isEmpty

/-- The exit condition as the claim words it (spec refinement target, stated
from the claim text, not from the source): pending empty, next-queue empty,
and no block record in status `running` or `waiting`. -/
def claimedExitCondition (pending : List String) (procs : List Process)
    (nextQueue : List String) : Bool :=
  pending.isEmpty && nextQueue.isEmpty &&
    procs.all (fun p => p.status ≠ "running" && p.status ≠ "waiting")

/-! ## Block configuration (the per-block dict of the flow document) -/

/-- The fields of a block dict consulted by the embedded fragments
(`block.get('name')`, `block.get('depends_on', [])`, `block.get('command', '')`,
`block.get('blocking_pause', True)`, `block.get('agent', '')`,
`block.get('max_runs', 1)`).  The `stage` alias for `name` and the fields not
consulted by any theorem (`prompt`, `logic`, `next`, ...) are elided. -/
structure BlockConf where
  name : String
  depends_on : List String := []
  command : String := ""
  blocking_pause : Bool := true
  agent : String := ""
  max_runs : Nat := 1
  deriving Repr, DecidableEq

/-! ## Phase computation (`_calculate_phase` and the first pass of
`_initialize_all_processes`) -/

/-- Embeds `ProcessManager._calculate_phase` (`rein/orchestrator.py` lines
566-571): no dependencies means phase 1, otherwise
`max(block_phases.get(dep, 0) for dep in depends_on) + 1`. -/
def calculate_phase (depends_on : List String) (block_phases : List (String × Nat)) : Nat :=
  if depends_on.isEmpty then 1
  else (depends_on.map (fun dep => ((block_phases.lookup dep).getD 0))).foldl max 0 + 1

/-- Embeds the first pass of `_initialize_all_processes`
(`rein/orchestrator.py` lines 626-633): a single left-to-right sweep over the
blocks in document order, each block's phase computed from the phases
accumulated so far (`block_phases[name] = phase`). -/
def computePhasesFrom (acc : List (String × Nat)) : List BlockConf → List (String × Nat)
  | [] => acc
  | block :: rest =>
      computePhasesFrom (acc ++ [(block.name, calculate_phase block.depends_on acc)]) rest

/-- The phase map computed by `_initialize_all_processes` for a block list. -/
def computePhases (blocks : List BlockConf) : List (String × Nat) :=
  computePhasesFrom [] blocks

/-- The blocks are listed in dependency order: every name in a block's
`depends_on` occurs among the previously listed names (`seen` accumulates the
names already passed). -/
inductive TopoFrom : List String → List BlockConf → Prop
  | nil (seen : List String) : TopoFrom seen []
  | cons {seen : List String} {b : BlockConf} {rest : List BlockConf} :
      (∀ d ∈ b.depends_on, d ∈ seen) → TopoFrom (seen ++ [b.name]) rest →
      TopoFrom seen (b :: rest)

/-- A block list in dependency order from the start. -/
def TopoOrdered (blocks : List BlockConf) : Prop := TopoFrom [] blocks

/-! ## Resume cascade (`_get_dependents_map`, `_cascade_invalidation`,
`_initialize_all_processes`) -/

/-- Embeds `ProcessManager._get_dependents_map` (`rein/orchestrator.py` lines
573-582) as a lookup function: the dependents of `dep` are the names of the
blocks whose `depends_on` contains `dep`, in document order (the dict of the
source evaluates `dependents.get(dep, [])` to exactly this list; a block
listing the same dependency twice would be appended twice in the source, with
no effect on the visited set computed below). -/
def dependentsOf (blocks : List BlockConf) (dep : String) : List String :=
  (blocks.filter (fun b => dep ∈ b.depends_on)).map (fun b => b.name)

/-- One pass of the body of the BFS loop of `_cascade_invalidation`
(`rein/orchestrator.py` lines 590-594): for each downstream block of the
popped element, if it is not yet in `needs_rerun`, add it to the set and to
the queue. -/
def addNewDependents (visited queue : List String) : List String → List String × List String
  | [] => (visited, queue)
  | d :: ds =>
      if d ∈ visited then addNewDependents visited queue ds
      else addNewDependents (visited ++ [d]) (queue ++ [d]) ds

/-- Embeds the `while queue:` loop of `_cascade_invalidation`
(`rein/orchestrator.py` lines 588-595).  The Python loop terminates because
every block name enters `needs_rerun` at most once; here the same bound is
made explicit as fuel (one unit per `queue.pop(0)`). -/
def cascadeAux (deps : String → List String) : Nat → List String → List String → List String
  | 0, _, visited => visited
  | _ + 1, [], visited => visited
  | fuel + 1, current :: queue, visited =>
      let vq := addNewDependents visited queue (deps current)
      cascadeAux deps fuel vq.2 vq.1

/-- Embeds `ProcessManager._cascade_invalidation` (`rein/orchestrator.py`
lines 584-595): BFS from the failed blocks through the dependents map,
returning the full set needing re-run.  `failed.length + blocks.length` units
of fuel cover every possible `queue.pop(0)`: the queue receives the failed
blocks once and each block name at most once after that. -/
def cascade_invalidation (blocks : List BlockConf) (failed : List String) : List String :=
  cascadeAux (dependentsOf blocks) (failed.length + blocks.length) failed failed

/-- The names of the blocks of the document, in order. -/
def blockNames (blocks : List BlockConf) : List String :=
  blocks.map (fun b => b.name)

/-- Proof-side termination measure for the BFS: how many of the given names
are not yet in the visited list. -/
def unvisitedCount (names v : List String) : Nat :=
  (names.filter (fun n => !decide (n ∈ v))).length

/-- Reachability in the dependents (reverse-dependency) graph:
`ReachDep blocks x y` holds iff `y` is `x` itself or can be reached from `x`
by repeatedly stepping to a block that depends on the current one. -/
inductive ReachDep (blocks : List BlockConf) : String → String → Prop
  | refl (x : String) : ReachDep blocks x x
  | step {x y z : String} : ReachDep blocks x y → z ∈ dependentsOf blocks y →
      ReachDep blocks x z

/-- The `failed_blocks` set of `_initialize_all_processes`
(`rein/orchestrator.py` line 617): names whose persisted status is
`failed` or `running`. -/
def failedBlocks (existing : List (String × String)) : List String :=
  (existing.filter (fun e => e.2 = "failed" || e.2 = "running")).map (fun e => e.1)

/-- The observable effects of `_initialize_all_processes`:
which outputs directories were deleted (`_clean_block_outputs`), which block
names were marked completed (preserved `done` records), and which records
were (re)created through `state.save_process`. -/
structure InitResult where
  needs_rerun : List String
  cleaned : List String
  completed : List String
  saved : List (String × Process)
  deriving Repr

/-- The fresh record created by the second pass of
`_initialize_all_processes` (`rein/orchestrator.py` lines 678-692): status
`waiting`, progress 0, `exit_code` at its dataclass default `None`, the
phase from the first pass; `now` stands for `time.time()` and `uidOf` for
the truncated `uuid.uuid4()` of line 645. -/
def freshWaitingRecord (phases : List (String × Nat)) (now : Rat)
    (uidOf : String → String) (block : BlockConf) : Process :=
  { pid := none, name := block.name, status := "waiting", start_time := now,
    command := block.command, uid := uidOf block.name,
    depends_on := block.depends_on, progress := 0,
    phase := ((phases.lookup block.name).getD 0 : Nat),
    blocking_pause := block.blocking_pause, agent := block.agent,
    max_runs := block.max_runs }

/-- The second pass of `_initialize_all_processes` (`rein/orchestrator.py`
lines 636-698) for one block: either the block is already `done` and not
invalidated (keep the DB record, mark completed; the in-memory `Process`
with status `done`/progress 100 of lines 658-676 is not persisted and is
elided here), or a fresh `waiting` record is created and saved. -/
def initSecondPassStep (existing : List (String × String)) (needsRerun : List String)
    (phases : List (String × Nat)) (now : Rat) (uidOf : String → String)
    (acc : List String × List (String × Process)) (block : BlockConf) :
    List String × List (String × Process) :=
  if existing.lookup block.name = some "done" ∧ block.name ∉ needsRerun then
    (acc.1 ++ [block.name], acc.2)
  else
    (acc.1, acc.2 ++ [(block.name, freshWaitingRecord phases now uidOf block)])

/-- Embeds `ProcessManager._initialize_all_processes` (`rein/orchestrator.py`
lines 605-701): read the persisted statuses, cascade-invalidate from every
`failed`/`running` record, clean the outputs of every invalidated block,
compute phases, then create/preserve the per-block records. -/
def initialize_all_processes (blocks : List BlockConf) (existing : List (String × String))
    (now : Rat) (uidOf : String → String) : InitResult :=
  let failed := failedBlocks existing
  let needsRerun := if failed.isEmpty then [] else cascade_invalidation blocks failed
  let phases := computePhases blocks
  let second := blocks.foldl (initSecondPassStep existing needsRerun phases now uidOf) ([], [])
  { needs_rerun := needsRerun, cleaned := needsRerun,
    completed := second.1, saved := second.2 }

/-! ## State-machine next transition (`_execute_block`, lines 1077-1103) -/

/-- The slice of `ProcessManager` state touched by the next-transition code:
`run_counts` (a dict read through `.get(name, 0)`), `next_queue` (names; the
`trigger_data` payload accompanying each entry is not consulted by any
theorem and is elided), `completed`, and the uid-keyed process map. -/
structure SMState where
  run_counts : String → Nat
  next_queue : List String
  completed : List String
  procs : List (String × Process)

/-- `self.block_configs.get(next_block_name)` followed by
`next_block_config.get('max_runs', 1) if next_block_config else 1`
(`rein/orchestrator.py` lines 1080-1081). -/
def maxRunsOf (cfgs : List BlockConf) (name : String) : Nat :=
  ((cfgs.find? (fun b => b.name = name)).map (fun b => b.max_runs)).getD 1

/-- The reset of the first in-memory process with the given name
(`rein/orchestrator.py` lines 1093-1099): status `waiting`, progress 0,
`run_count` set to the new count, then `break`. -/
def resetFirstByName : List (String × Process) → String → Nat → List (String × Process)
  | [], _, _ => []
  | e :: rest, nm, rc =>
      if e.2.name = nm then
        (e.1, { e.2 with status := "waiting", progress := 0, run_count := rc }) :: rest
      else e :: resetFirstByName rest nm rc

/-- Embeds the max-runs gate of `_execute_block` (`rein/orchestrator.py`
lines 1077-1103): when `run_counts.get(target, 0) >= max_runs` only a
`NEXT BLOCKED` log line is written and the state is unchanged; otherwise the
run count is incremented, the target is discarded from `completed`, its
process record is reset to `waiting`, and the target is appended to
`next_queue`. -/
def triggerNext (cfgs : List BlockConf) (st : SMState) (nextName : String) : SMState :=
  let currentRuns := st.run_counts nextName
  let maxRuns := maxRunsOf cfgs nextName
  if currentRuns ≥ maxRuns then st
  else
    { run_counts := fun b => if b = nextName then currentRuns + 1 else st.run_counts b,
      completed := st.completed.filter (fun b => b ≠ nextName),
      procs := resetFirstByName st.procs nextName (currentRuns + 1),
      next_queue := st.next_queue ++ [nextName] }

/-! ## Single-block pause / resume / cancel (`pause_single`, `resume_single`) -/

/-- The identifier lookup shared by `pause_single`, `resume_single` and
`cancel_single` (`rein/orchestrator.py` lines 1512-1521): direct uid match
first, then first process whose `name` matches. -/
def findProcess (procs : List (String × Process)) (identifier : String) :
    Option (String × Process) :=
  match procs.lookup identifier with
  | some p => some (identifier, p)
  | none => procs.find? (fun e => e.2.name = identifier)

/-- Replace the entry with the given uid. -/
def setProcess (procs : List (String × Process)) (uid : String) (p : Process) :
    List (String × Process) :=
  procs.map (fun e => if e.1 = uid then (uid, p) else e)

/-- Embeds `ProcessManager.pause_single` (`rein/orchestrator.py` lines
1505-1538): fail when the target is missing or its status is `done` or
`failed`; otherwise remember the previous status (only if not already
remembered, mirroring the `hasattr` guard) and set `paused`.  Returns the
success flag together with the updated process map. -/
def pause_single (procs : List (String × Process)) (identifier : String) :
    Bool × List (String × Process) :=
  match findProcess procs identifier with
  | none => (false, procs)
  | some (uid, p) =>
      if p.status = "done" ∨ p.status = "failed" then (false, procs)
      else
        let prev := match p.prev_status with
          | none => some p.status
          | s => s
        (true, setProcess procs uid { p with prev_status := prev, status := "paused" })

/-- Embeds `ProcessManager.resume_single` (`rein/orchestrator.py` lines
1540-1572): fail when the target is missing or not `paused`; otherwise
restore the remembered status (default `waiting`) and forget it. -/
def resume_single (procs : List (String × Process)) (identifier : String) :
    Bool × List (String × Process) :=
  match findProcess procs identifier with
  | none => (false, procs)
  | some (uid, p) =>
      if p.status ≠ "paused" then (false, procs)
      else
        (true, setProcess procs uid
          { p with status := p.prev_status.getD "waiting", prev_status := none })

/-! ## Python string primitives

The Python string operations used by the orchestrator (`strip`, `split`,
`startswith`, `endswith`, `lower`, slicing), re-implemented by structural
recursion over the character list so that every definition evaluates inside
the kernel. -/

/-- `pre` is a prefix of `l`. -/
def listLeads : List Char → List Char → Bool
  | [], _ => true
  | _ :: _, [] => false
  | a :: as, b :: bs => a == b && listLeads as bs

/-- Python `s.startswith(pre)`. -/
def pyStartsWith (s pre : String) : Bool := listLeads pre.data s.data

/-- Python `s.endswith(suf)`. -/
def pyEndsWith (s suf : String) : Bool := listLeads suf.data.reverse s.data.reverse

/-- Python `s.strip()` (whitespace from both ends). -/
def pyStrip (s : String) : String :=
  String.mk (((s.data.dropWhile Char.isWhitespace).reverse.dropWhile
    Char.isWhitespace).reverse)

/-- Python `s.lower()` (ASCII case folding suffices here). -/
def pyLower (s : String) : String := String.mk (s.data.map Char.toLower)

/-- Python `s[n:]`. -/
def pyDrop (s : String) (n : Nat) : String := String.mk (s.data.drop n)

/-- Python `s[:-n]`. -/
def pyDropRight (s : String) (n : Nat) : String :=
  String.mk (s.data.take (s.data.length - n))

/-- Python `s.split(sep)` for a non-empty separator, with explicit fuel
(one unit per consumed character). -/
def splitOnListAux (sep : List Char) : Nat → List Char → List Char → List (List Char)
  | _, [], acc => [acc.reverse]
  | 0, s, acc => [acc.reverse ++ s]
  | fuel + 1, c :: rest, acc =>
      if listLeads sep (c :: rest) && !sep.isEmpty then
        acc.reverse :: splitOnListAux sep fuel ((c :: rest).drop sep.length) []
      else splitOnListAux sep fuel rest (c :: acc)

def pySplit (s sep : String) : List String :=
  (splitOnListAux sep.data s.data.length s.data []).map String.mk

/-- Python `s.split(sep, 1)` when `sep in s` (`none` when the separator does
not occur): the text before the first occurrence and everything after it. -/
def splitFirstAux (sep : List Char) : Nat → List Char → List Char →
    Option (List Char × List Char)
  | _, [], _ => none
  | 0, _, _ => none
  | fuel + 1, c :: rest, acc =>
      if listLeads sep (c :: rest) && !sep.isEmpty then
        some (acc.reverse, (c :: rest).drop sep.length)
      else splitFirstAux sep fuel rest (c :: acc)

def pySplitFirst (s sep : String) : Option (String × String) :=
  (splitFirstAux sep.data s.data.length s.data []).map
    (fun p => (String.mk p.1, String.mk p.2))

/-! ## Condition evaluator (`_evaluate_condition`, `_resolve_path`) -/

/-- JSON-like runtime values flowing through `_resolve_path` and
`_evaluate_condition` (Python `None` / `bool` / `int`+`float` / `str` /
`list` / `dict`).  Numbers are modelled as rationals. -/
inductive JValue where
  | null
  | bool (b : Bool)
  | num (q : Rat)
  | str (s : String)
  | arr (size : Nat)
  | obj (fields : List (String × JValue))

/-- Embeds `ProcessManager._resolve_path` (`rein/orchestrator.py` lines
849-860): split the dotted path, walk the dict; any miss or non-dict step
returns `None`. -/
def resolvePathParts : List String → JValue → JValue
  | [], cur => cur
  | part :: rest, cur =>
      match cur with
      | .obj fields =>
          match fields.lookup part with
          | some v => resolvePathParts rest v
          | none => .null
      | _ => .null

/-- `_resolve_path` on a dotted path string (`path.split('.')`). -/
def resolvePath (path : String) (data : JValue) : JValue :=
  resolvePathParts (pySplit path ".") data

/-- Python truthiness (`bool(value)`) for the modelled values. -/
def pyTruthy : JValue → Bool
  | .null => false
  | .bool b => b
  | .num q => q ≠ 0
  | .str s => s ≠ ""
  | .arr n => n ≠ 0
  | .obj fields => !fields.isEmpty

/-- The comparison operators of `_evaluate_condition`, in the scan order of
the source (`['==', '!=', '>=', '<=', '>', '<']`,
`rein/orchestrator.py` line 810). -/
inductive CmpOp where
  | eq | ne | ge | le | gt | lt
  deriving Repr, DecidableEq

def opToken : CmpOp → String
  | .eq => "=="
  | .ne => "!="
  | .ge => ">="
  | .le => "<="
  | .gt => ">"
  | .lt => "<"

def opScanOrder : List CmpOp := [.eq, .ne, .ge, .le, .gt, .lt]

/-- Scan `opScanOrder` for the first operator occurring in the expression and
split on its first occurrence (the `for op in [...]` loop with
`inner_expr.split(op, 1)`, lines 810-812). -/
def findOpSplit (inner : String) : Option (String × CmpOp × String) :=
  (opScanOrder.firstM (fun op =>
    (pySplitFirst inner (opToken op)).map (fun p => (p.1, op, p.2))))

/-- Python `str.strip("'"")`: remove leading and trailing single or
double quotes (`parts[1].strip().strip(...)`, line 815). -/
def isQuoteChar (c : Char) : Bool := c = Char.ofNat 39 || c = Char.ofNat 34

def stripQuotes (s : String) : String :=
  String.mk (((s.toList.dropWhile isQuoteChar).reverse.dropWhile isQuoteChar).reverse)

/-- A restricted model of Python `float(right_str)`: optional sign, decimal
digits with an optional fractional part (exotic float syntax — exponents,
`inf`, `nan`, underscores — is not exercised by any theorem below and is
elided).  `none` models the `ValueError` caught on lines 823-824. -/
def parseDigits : List Char → Option Nat
  | [] => none
  | cs => cs.foldlM (fun acc c => if c.isDigit then some (acc * 10 + (c.toNat - 48)) else none) 0

def parseFloat? (s : String) : Option Rat :=
  let chars := s.data
  let signAndRest : Bool × List Char :=
    match chars with
    | '-' :: rest => (true, rest)
    | '+' :: rest => (false, rest)
    | rest => (false, rest)
  let body := signAndRest.2
  match splitOnListAux ['.'] body.length body [] with
  | [intPart] =>
      (parseDigits intPart).map (fun n => if signAndRest.1 then -(n : Rat) else (n : Rat))
  | [intPart, fracPart] =>
      match parseDigits intPart, parseDigits fracPart with
      | some n, some f =>
          let q : Rat := (n : Rat) + (f : Rat) / ((10 : Rat) ^ fracPart.length)
          some (if signAndRest.1 then -q else q)
      | _, _ => none
  | _ => none

/-- The literal coercion of `_evaluate_condition` (`rein/orchestrator.py`
lines 817-826): a boolean left operand coerces the literal through
`right_str.lower() in ('true', '1', 'yes')`; a numeric left operand tries
`float(right_str)` and keeps the raw string on failure; any other left
operand (including `None`) keeps the raw string. -/
def coerceLiteral (left : JValue) (rightStr : String) : JValue :=
  match left with
  | .bool _ => .bool (pyLower rightStr = "true" || pyLower rightStr = "1" ||
      pyLower rightStr = "yes")
  | .num _ =>
      match parseFloat? rightStr with
      | some q => .num q
      | none => .str rightStr
  | _ => .str rightStr

/-- Python `left == right` for the value shapes reachable in
`_evaluate_condition`: after coercion the right operand is always a bool, a
number or a string, so equality across different shapes is `False` (the
bool-vs-number and deep container cases of Python `==` cannot arise and are
not modelled). -/
def pyEq : JValue → JValue → Bool
  | .null, .null => true
  | .bool a, .bool b => a == b
  | .num a, .num b => a == b
  | .str a, .str b => a == b
  | _, _ => false

/-- Python `left < right` for the reachable value shapes; `none` models the
`TypeError` raised on unordered operands (in particular any comparison with
`None`), which the surrounding `try` of `_evaluate_condition` converts to a
`False` result (lines 845-847). -/
def pyLt : JValue → JValue → Option Bool
  | .num a, .num b => some (decide (a < b))
  | .str a, .str b => some (decide (a < b))
  | .bool a, .bool b => some (decide (a < b))
  | _, _ => none

def pyLe : JValue → JValue → Option Bool
  | .num a, .num b => some (decide (a ≤ b))
  | .str a, .str b => some (decide (a ≤ b))
  | .bool a, .bool b => some (decide (a ≤ b))
  | _, _ => none

/-- The structured form of a condition after the string-level work of
`_evaluate_condition`: either a bare truthiness path or
`path <op> literal`. -/
inductive CondAst where
  | truthy (path : String)
  | cmp (path : String) (op : CmpOp) (rightRaw : String)
  deriving Repr, DecidableEq

/-- The regex extraction of `_evaluate_condition` (line 802):
`re.match(r'\x7b\x7b\s*(.+?)\s*\x7d\x7d', expr.strip())` followed by
`.strip()` on the group.  For a string that opens with double braces, the
non-greedy group runs to the first closing double brace and must be
non-empty. -/
def extractInner (expr : String) : Option String :=
  let s := pyStrip expr
  if pyStartsWith s "\x7b\x7b" then
    match pySplit (pyDrop s 2) "\x7d\x7d" with
    | group :: _ :: _ => if group = "" then none else some (pyStrip group)
    | _ => none
  else none

/-- The string-level half of `_evaluate_condition` (lines 800-815): extract
the inner expression, scan for a comparison operator, split once, trim the
left side (the path) and trim-and-unquote the right side (the literal). -/
def parseCondition (expr : String) : Option CondAst :=
  match extractInner expr with
  | none => none
  | some inner =>
      match findOpSplit inner with
      | some (l, op, r) => some (.cmp (pyStrip l) op (stripQuotes (pyStrip r)))
      | none => some (.truthy inner)

/-- The semantic half of `_evaluate_condition` (lines 813-843): resolve the
left path, coerce the literal, compare; a parse failure or a `TypeError`
yields `False` (lines 803-805 and 845-847); Python `!=` is the complement of
`==` and never raises. -/
def evalParsed (c : Option CondAst) (data : JValue) : Bool :=
  match c with
  | none => false
  | some (.truthy path) => pyTruthy (resolvePath path data)
  | some (.cmp path op rightRaw) =>
      let left := resolvePath path data
      let right := coerceLiteral left rightRaw
      match op with
      | .eq => pyEq left right
      | .ne => !pyEq left right
      | .gt => (pyLt right left).getD false
      | .lt => (pyLt left right).getD false
      | .ge => (pyLe right left).getD false
      | .le => (pyLe left right).getD false

/-- Embeds `ProcessManager._evaluate_condition` (`rein/orchestrator.py` lines
792-847), factored into its string-level parse and its semantic evaluation. -/
def evaluate_condition (expr : String) (data : JValue) : Bool :=
  evalParsed (parseCondition expr) data

/-! ## Prompt assembly (`assemble_prompt`, `rein/orchestrator.py` lines
347-455).  The prompt template is modelled as the alternating token list the
source recovers with `re.finditer(r'\x7b\x7b([^\x7d]+)\x7d\x7d', prompt)`:
literal text pieces and placeholder pieces carrying the raw inner text
(spaces preserved). -/

inductive PromptPiece where
  | text (s : String)
  | placeholder (inner : String)
  deriving Repr, DecidableEq

/-- Render a piece back to the template string
(`full_placeholder = match.group(0)`). -/
def renderPiece : PromptPiece → String
  | .text s => s
  | .placeholder inner => "\x7b\x7b" ++ inner ++ "\x7d\x7d"

def renderPieces (pieces : List PromptPiece) : String :=
  (pieces.map renderPiece).foldl (fun a b => a ++ b) ""

/-- Python `\w` (word character, ASCII range as used by the placeholders). -/
def isWordChar (c : Char) : Bool := c.isAlphanum || c = '_'

/-- Recognise the task-input pattern
`\x7b\x7b\s*task\.input\.(\w+)\s*\x7d\x7d` on the raw inner text of a
placeholder (lines 368 and 433), returning the field name. -/
def taskInputField (inner : String) : Option String :=
  let t := pyStrip inner
  if pyStartsWith t "task.input." then
    let f := pyDrop t 11
    if f ≠ "" && f.data.all isWordChar then some f else none
  else none

/-- The environment of `assemble_prompt`: the task input (values already
rendered by `str(value)` / `json.dumps` of lines 374-377), the specialist
loader (which may raise: an `Except.error` models the exception of
`load_specialist`), and the three file-reference sources of lines 392-410.
For each source, `none` means `os.path.exists` is false; `some r` means the
file exists and `r` is the outcome of the `open`/`json.load`/unwrap/`dumps`
of lines 413-426 (`Except.ok` the substitution text, `Except.error` the
exception caught on lines 427-428, which leaves the placeholder in place). -/
structure AssembleEnv where
  task_input : List (String × String)
  specialists : String → Except String String
  block_output : String → Option (Except String String)
  task_output : String → Option (Except String String)
  workflow_file : String → Option (Except String String)

/-- The prompt-relevant fields of the block dict
(`block.get('agents', [])`, `block.get('specialist')`, `block.get('prompt', '')`). -/
structure PromptBlock where
  agents : List String := []
  specialist : Option String := none
  prompt : List PromptPiece := []

/-- Lines 350-360: load the specialists (a configured `specialist` overrides
the `agents` list) and concatenate them with separators; a failing load
raises out of the loop. -/
def specialistText (env : AssembleEnv) (blk : PromptBlock) : Except String String :=
  let agents := match blk.specialist with
    | some s => [s]
    | none => blk.agents
  agents.foldlM (fun acc a => (env.specialists a).map (fun spec => acc ++ "\n---\n" ++ spec)) ""

/-- Pass 1 (lines 365-378): substitute every `task.input.<field>` placeholder
whose field is present in the task input (`prompt.replace` replaces every
occurrence; a piece-wise map is equivalent).  Placeholders with missing
fields, and all other placeholders, are untouched. -/
def substTaskInput (ti : List (String × String)) (pieces : List PromptPiece) :
    List PromptPiece :=
  pieces.map (fun piece =>
    match piece with
    | .placeholder inner =>
        match taskInputField inner with
        | some f =>
            match ti.lookup f with
            | some v => .text v
            | none => piece
        | none => piece
    | t => t)

/-- The path-resolution priority of lines 389-410: block output for a
`.json`-suffixed reference (name with the suffix removed), then the task
`outputs/` directory, then the workflow directory. -/
def resolveFileRef (env : AssembleEnv) (filename : String) :
    Option (Except String String) :=
  let fromBlock :=
    if pyEndsWith filename ".json" then env.block_output (pyDropRight filename 5)
    else none
  match fromBlock with
  | some r => some r
  | none =>
      match env.task_output filename with
      | some r => some r
      | none => env.workflow_file filename

/-- Pass 2 (lines 383-430): for every remaining placeholder, resolve the
trimmed reference; on success substitute the serialized content, on a read
error or when no source has the file leave the placeholder as-is (both cases
are only logged). -/
def substFiles (env : AssembleEnv) (pieces : List PromptPiece) : List PromptPiece :=
  pieces.map (fun piece =>
    match piece with
    | .placeholder inner =>
        match resolveFileRef env (pyStrip inner) with
        | some (.ok s) => .text s
        | some (.error _) => piece
        | none => piece
    | t => t)

/-- The safety-net scan of lines 432-433:
`re.findall(r'\x7b\x7b\s*task\.input\.(\w+)\s*\x7d\x7d', prompt)`. -/
def unresolvedTaskInputs (pieces : List PromptPiece) : List String :=
  pieces.filterMap (fun piece =>
    match piece with
    | .placeholder inner => taskInputField inner
    | _ => none)

/-- The exceptions that can escape the body of `assemble_prompt`: the
`ValueError` of line 435 (carrying the set of unresolved field names) and any
other Python exception (here: a failing specialist load). -/
inductive AsmError where
  | valueError (missing : List String)
  | pyExc (msg : String)
  deriving Repr, DecidableEq

/-- The body of `assemble_prompt` (lines 349-450) before its
`except` clauses: specialists, pass 1, pass 2, safety net, final
concatenation (line 441: team tone, blank line, specialist text, separator,
resolved prompt).  The `ValueError` payload mirrors `set(unresolved)` as a
deduplicated list. -/
def assemble_prompt_core (env : AssembleEnv) (blk : PromptBlock) (team_tone : String) :
    Except AsmError String :=
  match specialistText env blk with
  | .error e => .error (.pyExc e)
  | .ok spText =>
      let p1 := substTaskInput env.task_input blk.prompt
      let p2 := substFiles env p1
      let unresolved := unresolvedTaskInputs p2
      if unresolved.isEmpty then
        .ok (team_tone ++ "\n\n" ++ spText ++ "\n\n---\n\n" ++ renderPieces p2)
      else .error (.valueError unresolved.dedup)

/-- Embeds `ProcessManager.assemble_prompt` with its exception handling
(lines 451-455): `except ValueError: raise` re-raises the unresolved-fields
error, `except Exception: return ""` converts every other exception into the
empty prompt. -/
def assemble_prompt (env : AssembleEnv) (blk : PromptBlock) (team_tone : String) :
    Except (List String) String :=
  match assemble_prompt_core env blk team_tone with
  | .ok s => .ok s
  | .error (.valueError missing) => .error missing
  | .error (.pyExc _) => .ok ""

/-! ## Concrete fixtures used by counterexamples and witnesses -/

/-- A block record cancelled by `cancel_single` (status `cancelled`). -/
def cancelledProc : Process :=
  { pid := none, name := "blk-a", status := "cancelled", start_time := 0, command := "" }

/-- A uid-keyed entry for a block that is currently `paused` with a
remembered previous status. -/
def pausedEntry : String × Process :=
  ("u1", { pid := none, name := "blk-p", status := "paused", start_time := 0,
           command := "", prev_status := some "running" })

/-- A uid-keyed entry for a cancelled block. -/
def cancelledEntry : String × Process :=
  ("u2", { pid := none, name := "blk-c", status := "cancelled", start_time := 0,
           command := "" })

/-- A uid-keyed entry for a running block with nothing remembered. -/
def runningEntry : String × Process :=
  ("u3", { pid := none, name := "blk-r", status := "running", start_time := 0,
           command := "" })

/-! # Theorems -/

/-! ## Shared helper lemmas -/

theorem lookup_eq_some_of_append_left {α β : Type} [BEq α] {l₁ l₂ : List (α × β)}
    {k : α} {v : β} (h : l₁.lookup k = some v) : (l₁ ++ l₂).lookup k = some v := by
  induction l₁ with
  | nil => simp [List.lookup] at h
  | cons e es ih =>
      simp only [List.lookup, List.cons_append] at h ⊢
      cases hk : (k == e.1) with
      | true => simpa [hk] using h
      | false =>
          rw [hk] at h
          simpa [hk] using ih h

theorem lookup_eq_none_of_not_mem_keys {β : Type} {l : List (String × β)} {k : String}
    (h : k ∉ l.map Prod.fst) : l.lookup k = none := by
  induction l with
  | nil => rfl
  | cons e es ih =>
      simp only [List.map_cons, List.mem_cons] at h
      push_neg at h
      simp only [List.lookup]
      have : (k == e.1) = false := by
        simpa [beq_iff_eq] using h.1
      rw [this]
      exact ih h.2

theorem exists_lookup_of_mem_keys {β : Type} {l : List (String × β)} {k : String}
    (h : k ∈ l.map Prod.fst) : ∃ v, l.lookup k = some v := by
  induction l with
  | nil => simp at h
  | cons e es ih =>
      simp only [List.map_cons, List.mem_cons] at h
      by_cases hk : k = e.1
      · exact ⟨e.2, by simp [List.lookup, hk]⟩
      · rcases h with h | h
        · exact absurd h hk
        · rcases ih h with ⟨v, hv⟩
          refine ⟨v, ?_⟩
          have : (k == e.1) = false := by simpa [beq_iff_eq] using hk
          simp [List.lookup, this, hv]

theorem lookup_append_singleton {β : Type} {l : List (String × β)} {k : String} {v : β}
    (h : k ∉ l.map Prod.fst) : (l ++ [(k, v)]).lookup k = some v := by
  induction l with
  | nil => simp [List.lookup]
  | cons e es ih =>
      simp only [List.map_cons, List.mem_cons] at h
      push_neg at h
      have hk : (k == e.1) = false := by
        rw [Bool.eq_false_iff]
        intro hc
        exact h.1 (beq_iff_eq.mp hc)
      simp only [List.cons_append, List.lookup, hk]
      exact ih h.2

theorem mem_of_lookup_eq_some {β : Type} {l : List (String × β)} {k : String} {v : β}
    (h : l.lookup k = some v) : (k, v) ∈ l := by
  induction l with
  | nil => simp [List.lookup] at h
  | cons e es ih =>
      simp only [List.lookup] at h
      cases hk : (k == e.1) with
      | true =>
          rw [hk] at h
          have hke : k = e.1 := by simpa [beq_iff_eq] using hk
          simp only [Option.some.injEq] at h
          have : (k, v) = e := by
            cases e
            simp_all
          rw [this]
          exact List.mem_cons_self _ _
      | false =>
          rw [hk] at h
          exact List.mem_cons_of_mem _ (ih h)

/-! ## C9 — state-store round trip -/

/-- C9: the state-store round trip is only partial: after `save_process`,
`get_process` on the same name returns a record that agrees with the saved
`Process` on `name`, `pid`, `status`, `start_time`, `command`, `exit_code`,
`cpu_percent`, `memory_mb`, `progress`, `phase` and `blocking_pause`, while
`uid`, `depends_on`, `agent`, `next_spec`, `run_count` and `max_runs` come
back as their dataclass defaults (`""`, `[]`, `""`, `None`, `0`, `1`) —
those columns are not persisted. -/
theorem state_roundtrip_partial (db : DB) (p : Process) (now : Rat) :
    get_process (save_process db p now) p.name =
      some { pid := p.pid, name := p.name, status := p.status,
             start_time := p.start_time, command := p.command,
             uid := "", exit_code := p.exit_code, cpu_percent := p.cpu_percent,
             memory_mb := p.memory_mb, depends_on := [], progress := p.progress,
             phase := p.phase, blocking_pause := p.blocking_pause, agent := "",
             next_spec := none, max_runs := 1, run_count := 0,
             prev_status := none } := by
  simp only [get_process, save_process, if_pos rfl, Option.map_some]
  cases hb : p.blocking_pause <;> simp [rowToProcess]

/-! ## C6 — finalization status -/

/-- C6 counterexample: a run whose single block was cancelled by a user
interrupt is finalized with status `completed`, never `cancelled` — the
status computation of `_finalize_run` only distinguishes `failed` counts. -/
theorem finalize_status_cancelled_counterexample :
    finalizeStatus [cancelledProc] = "completed" ∧
      finalizeStatus [cancelledProc] ≠ "cancelled" := by
  constructor <;> decide

/-- C6 amended: at finalization the task status file receives `completed`
exactly when no block record has status `failed`, and `failed` otherwise;
the value `cancelled` is never written by `_finalize_run` (a user interrupt
exits through the SIGINT handler without finalizing). -/
theorem finalize_status_completed_or_failed (procs : List Process) :
    (finalizeStatus procs = "completed" ∨ finalizeStatus procs = "failed") ∧
    (finalizeStatus procs = "completed" ↔
      procs.countP (fun p => p.status = "failed") = 0) ∧
    finalizeStatus procs ≠ "cancelled" := by
  unfold finalizeStatus
  by_cases h : procs.countP (fun p => p.status = "failed") = 0 <;>
    simp [h]

/-! ## C4 — main-loop exit condition -/

/-- C4 counterexample: with an empty pending set, an empty next-queue and a
single `cancelled` block record, no block is `running` or `waiting` (the
claimed exit condition holds) yet the main loop's actual exit check
(`all_completed`, which demands `done` or `failed`) is false, so the loop
does not exit. -/
theorem loop_exit_cancelled_counterexample :
    claimedExitCondition [] [cancelledProc] [] = true ∧
      loopExitCondition [] [cancelledProc] [] = false := by
  constructor <;> decide

/-- C4 amended: the main loop's normal-exit check succeeds exactly when the
pending set is empty, the next-queue is empty, and every block record has
status `done` or `failed`; a record left in `cancelled` or `paused` (or any
other status) therefore prevents the normal exit. -/
theorem loop_exit_condition_iff (pending : List String) (procs : List Process)
    (nextQueue : List String) :
    loopExitCondition pending procs nextQueue = true ↔
      (pending = [] ∧ nextQueue = [] ∧
        ∀ p ∈ procs, p.status = "done" ∨ p.status = "failed") := by
  simp only [loopExitCondition, all_completed, Bool.and_eq_true, List.isEmpty_iff,
    List.all_eq_true, Bool.or_eq_true, decide_eq_true_eq]
  tauto

/-! ## C2 — run counts never exceed max_runs -/

/-- C2: the next-transition gate of `_execute_block` never lets a run count
exceed `max_runs`: a target whose current count has reached `max_runs` is
not enqueued and the state is unchanged (only `NEXT BLOCKED` is logged); a
target strictly below `max_runs` is enqueued with its count incremented; and
the invariant `run_counts[b] ≤ max_runs(b)` for every block is preserved by
every transition. -/
theorem run_counts_bounded (cfgs : List BlockConf) (st : SMState) (nextName : String) :
    (st.run_counts nextName ≥ maxRunsOf cfgs nextName →
      triggerNext cfgs st nextName = st) ∧
    (st.run_counts nextName < maxRunsOf cfgs nextName →
      (triggerNext cfgs st nextName).next_queue = st.next_queue ++ [nextName] ∧
      (triggerNext cfgs st nextName).run_counts nextName = st.run_counts nextName + 1) ∧
    ((∀ b, st.run_counts b ≤ maxRunsOf cfgs b) →
      ∀ b, (triggerNext cfgs st nextName).run_counts b ≤ maxRunsOf cfgs b) := by
  refine ⟨fun h => ?_, fun h => ?_, fun hinv b => ?_⟩
  · simp [triggerNext, if_pos h]
  · have h' : ¬ st.run_counts nextName ≥ maxRunsOf cfgs nextName := by omega
    simp [triggerNext, if_neg h']
  · by_cases h : st.run_counts nextName ≥ maxRunsOf cfgs nextName
    · simp only [triggerNext, if_pos h]
      exact hinv b
    · simp only [triggerNext, if_neg h]
      by_cases hb : b = nextName
      · subst hb
        simp only [if_pos rfl]
        simp only [ge_iff_le, not_le] at h
        simp
        omega
      · simp only [if_neg hb]
        exact hinv b

/-- C2 witness: a concrete transition with `run_counts = 1 < max_runs = 2`
enqueues the target and bumps its count to 2. -/
theorem run_counts_bounded_witness :
    (triggerNext [{ name := "b", max_runs := 2 }]
        { run_counts := fun _ => 1, next_queue := [], completed := [],
          procs := [] } "b").next_queue = ["b"] ∧
    (triggerNext [{ name := "b", max_runs := 2 }]
        { run_counts := fun _ => 1, next_queue := [], completed := [],
          procs := [] } "b").run_counts "b" = 2 := by
  have h := (run_counts_bounded [{ name := "b", max_runs := 2 }]
    { run_counts := fun _ => 1, next_queue := [], completed := [], procs := [] }
    "b").2.1 (by decide)
  exact ⟨h.1, h.2⟩

/-! ## C7 — pause/resume semantics -/

theorem lookup_setProcess_self {procs : List (String × Process)} {uid : String}
    {p q : Process} (h : procs.lookup uid = some p) :
    (setProcess procs uid q).lookup uid = some q := by
  induction procs with
  | nil => simp [List.lookup] at h
  | cons e es ih =>
      by_cases hke : e.1 = uid
      · subst hke
        have hstep : setProcess (e :: es) e.1 q = (e.1, q) :: setProcess es e.1 q := by
          simp [setProcess]
        rw [hstep]
        simp [List.lookup]
      · have hk : (uid == e.1) = false := by
          rw [Bool.eq_false_iff]
          intro hc
          exact hke (beq_iff_eq.mp hc).symm
        simp only [List.lookup, hk] at h
        have hstep : setProcess (e :: es) uid q = e :: setProcess es uid q := by
          simp [setProcess, if_neg hke]
        rw [hstep]
        simp only [List.lookup, hk]
        exact ih h

/-- C7 counterexample: `pause_single` on a block that is already `paused`
returns success (the claim says it must return failure), and `pause_single`
on a `cancelled` (terminal) block also returns success. -/
theorem pause_paused_counterexample :
    (pause_single [pausedEntry] "u1").1 = true ∧
      (pause_single [cancelledEntry] "u2").1 = true := by
  constructor <;> decide

/-- C7 amended: `pause_single` succeeds exactly when the target exists and
its status is neither `done` nor `failed` (so pausing an already-`paused` or
`cancelled` block also succeeds, keeping the originally remembered status);
`resume_single` succeeds exactly when the target exists and is `paused`; and
for a never-paused non-terminal block, pausing and then resuming restores
the record exactly (the remembered status — `running` or `waiting` — is
reinstated). -/
theorem pause_resume_semantics (procs : List (String × Process)) (identifier : String) :
    ((pause_single procs identifier).1 = true ↔
      ∃ uid p, findProcess procs identifier = some (uid, p) ∧
        p.status ≠ "done" ∧ p.status ≠ "failed") ∧
    ((resume_single procs identifier).1 = true ↔
      ∃ uid p, findProcess procs identifier = some (uid, p) ∧ p.status = "paused") ∧
    (∀ uid p, procs.lookup uid = some p → p.prev_status = none →
      p.status ≠ "done" → p.status ≠ "failed" →
      (pause_single procs uid).1 = true ∧
      (resume_single (pause_single procs uid).2 uid).1 = true ∧
      (resume_single (pause_single procs uid).2 uid).2.lookup uid = some p) := by
  refine ⟨?_, ?_, ?_⟩
  · cases hfp : findProcess procs identifier with
    | none => simp [pause_single, hfp]
    | some e =>
        obtain ⟨uid, p⟩ := e
        by_cases hs : p.status = "done" ∨ p.status = "failed"
        · have heq : pause_single procs identifier = (false, procs) := by
            simp only [pause_single, hfp, if_pos hs]
          rw [heq]
          constructor
          · intro h
            exact absurd h Bool.false_ne_true
          · rintro ⟨uid', p', heq2, hd, hf⟩
            injection heq2 with heq2
            have hp : p = p' := congrArg Prod.snd heq2
            rcases hs with hs | hs
            · exact absurd (hp ▸ hs) hd
            · exact absurd (hp ▸ hs) hf
        · have heq : (pause_single procs identifier).1 = true := by
            simp only [pause_single, hfp, if_neg hs]
          rw [heq]
          push_neg at hs
          constructor
          · intro _
            exact ⟨uid, p, rfl, hs.1, hs.2⟩
          · intro _
            rfl
  · cases hfp : findProcess procs identifier with
    | none => simp [resume_single, hfp]
    | some e =>
        obtain ⟨uid, p⟩ := e
        by_cases hs : p.status = "paused"
        · have heq : (resume_single procs identifier).1 = true := by
            simp only [resume_single, hfp, if_neg (not_not_intro hs)]
          rw [heq]
          constructor
          · intro _
            exact ⟨uid, p, rfl, hs⟩
          · intro _
            rfl
        · have heq : resume_single procs identifier = (false, procs) := by
            simp only [resume_single, hfp, if_pos hs]
          rw [heq]
          constructor
          · intro h
            exact absurd h Bool.false_ne_true
          · rintro ⟨uid', p', heq2, hp⟩
            injection heq2 with heq2
            have hpp : p = p' := congrArg Prod.snd heq2
            exact absurd (hpp ▸ hp) hs
  · intro uid p hlk hprev hd hf
    have hns : ¬ (p.status = "done" ∨ p.status = "failed") := by tauto
    have hfp : findProcess procs uid = some (uid, p) := by
      simp [findProcess, hlk]
    have hpause : pause_single procs uid =
        (true, setProcess procs uid
          { p with prev_status := some p.status, status := "paused" }) := by
      simp only [pause_single, hfp, if_neg hns]
      rw [hprev]
    have hlk2 : (pause_single procs uid).2.lookup uid =
        some { p with prev_status := some p.status, status := "paused" } := by
      rw [hpause]
      exact lookup_setProcess_self hlk
    have hfp2 : findProcess (pause_single procs uid).2 uid =
        some (uid, { p with prev_status := some p.status, status := "paused" }) := by
      simp [findProcess, hlk2]
    have hresume : resume_single (pause_single procs uid).2 uid =
        (true, setProcess (pause_single procs uid).2 uid p) := by
      simp only [resume_single, hfp2, if_neg (not_not_intro rfl)]
      rw [Prod.mk.injEq]
      refine ⟨rfl, ?_⟩
      congr 1
      cases p
      simp_all
    refine ⟨by rw [hpause], by rw [hresume], ?_⟩
    rw [hresume]
    exact lookup_setProcess_self (by rw [hpause]; exact lookup_setProcess_self hlk)

/-- C7 witness: the amended semantics applied to a concrete map with one
`running` block: pausing succeeds, resuming the paused block succeeds, and
the original record (status `running`) is restored. -/
theorem pause_resume_semantics_witness :
    (pause_single [runningEntry] "u3").1 = true ∧
    (resume_single (pause_single [runningEntry] "u3").2 "u3").1 = true ∧
    (resume_single (pause_single [runningEntry] "u3").2 "u3").2.lookup "u3" =
      some runningEntry.2 := by
  exact (pause_resume_semantics [runningEntry] "u3").2.2 "u3" runningEntry.2
    (by decide) (by decide) (by decide) (by decide)

/-! ## C5 — phase computation -/

theorem computePhasesFrom_preserves {k : String} {v : Nat} :
    ∀ (rest : List BlockConf) (acc : List (String × Nat)),
    acc.lookup k = some v → (computePhasesFrom acc rest).lookup k = some v := by
  intro rest
  induction rest with
  | nil =>
      intro acc h
      simpa [computePhasesFrom] using h
  | cons b rs ih =>
      intro acc h
      simp only [computePhasesFrom]
      exact ih _ (lookup_eq_some_of_append_left h)

/-- C5 counterexample: with the blocks listed as `b (depends_on a)` before
`a`, the single document-order pass assigns phase 1 to both blocks, but
`max(phase of deps) + 1` for `b` evaluates to 2 — the computed phase depends
on the listing order. -/
theorem phase_order_counterexample :
    (computePhases [{ name := "b", depends_on := ["a"] }, { name := "a" }]).lookup "b"
        = some 1 ∧
    calculate_phase ["a"]
        (computePhases [{ name := "b", depends_on := ["a"] }, { name := "a" }]) = 2 := by
  constructor <;> decide

/-- C5 amended: when the blocks are listed in dependency order (every
dependency before its dependents) and names are distinct, the computed phase
of every block equals `max(phase of deps) + 1` against the final phase map
(`calculate_phase` of the final map), leaves getting phase 1; listed out of
order, a later dependency contributes phase 0 (see the counterexample). -/
theorem phase_formula_of_topo_ordered :
    ∀ (rest : List BlockConf) (acc : List (String × Nat)),
    TopoFrom (acc.map Prod.fst) rest →
    (acc.map Prod.fst ++ rest.map (fun b => b.name)).Nodup →
    ∀ b ∈ rest, (computePhasesFrom acc rest).lookup b.name =
      some (calculate_phase b.depends_on (computePhasesFrom acc rest)) := by
  intro rest
  induction rest with
  | nil =>
      intro acc _ _ b hb
      simp at hb
  | cons hd rs ih =>
      intro acc htopo hnodup b hb
      cases htopo with
      | cons hdeps htail =>
          have hnodup' : ((acc ++ [(hd.name, calculate_phase hd.depends_on acc)]).map
              Prod.fst ++ rs.map (fun b => b.name)).Nodup := by
            simp only [List.map_append, List.map_cons, List.map_nil] at hnodup ⊢
            simpa [List.append_assoc] using hnodup
          have hmapfst : ((acc ++ [(hd.name, calculate_phase hd.depends_on acc)]).map
              Prod.fst) = acc.map Prod.fst ++ [hd.name] := by
            simp
          have hname_not_in : hd.name ∉ acc.map Prod.fst := by
            rw [List.nodup_append] at hnodup
            intro hc
            exact hnodup.2.2 hc (by simp)
          have hentry : (acc ++ [(hd.name, calculate_phase hd.depends_on acc)]).lookup
              hd.name = some (calculate_phase hd.depends_on acc) :=
            lookup_append_singleton hname_not_in
          have hfinal_entry : (computePhasesFrom acc (hd :: rs)).lookup hd.name =
              some (calculate_phase hd.depends_on acc) := by
            simp only [computePhasesFrom]
            exact computePhasesFrom_preserves rs _ hentry
          have hdep_same : ∀ d ∈ hd.depends_on,
              ((computePhasesFrom acc (hd :: rs)).lookup d).getD 0 =
                ((acc.lookup d).getD 0) := by
            intro d hd'
            obtain ⟨vd, hvd⟩ := exists_lookup_of_mem_keys (hdeps d hd')
            have : (computePhasesFrom acc (hd :: rs)).lookup d = some vd := by
              simp only [computePhasesFrom]
              exact computePhasesFrom_preserves rs _ (lookup_eq_some_of_append_left hvd)
            rw [this, hvd]
          have hcalc_same : calculate_phase hd.depends_on (computePhasesFrom acc (hd :: rs)) =
              calculate_phase hd.depends_on acc := by
            unfold calculate_phase
            by_cases he : hd.depends_on.isEmpty
            · simp [he]
            · simp only [he, if_false]
              rw [List.map_congr_left hdep_same]
          rw [List.mem_cons] at hb
          rcases hb with rfl | hb
          · rw [hfinal_entry, hcalc_same]
          · have := ih (acc ++ [(hd.name, calculate_phase hd.depends_on acc)])
              (by rw [hmapfst]; exact htail) hnodup' b hb
            simpa [computePhasesFrom] using this

/-- C5 witness: for the dependency-ordered document `a` then
`b (depends_on a)`, the theorem gives `phase(b) = max(phase(a)) + 1`, which
evaluates to 2. -/
theorem phase_formula_witness :
    (computePhases [{ name := "a" }, { name := "b", depends_on := ["a"] }]).lookup "b" =
      some (calculate_phase ["a"]
        (computePhases [{ name := "a" }, { name := "b", depends_on := ["a"] }])) ∧
    (computePhases [{ name := "a" }, { name := "b", depends_on := ["a"] }]).lookup "b" =
      some 2 := by
  constructor
  · exact phase_formula_of_topo_ordered
      [{ name := "a" }, { name := "b", depends_on := ["a"] }] []
      (TopoFrom.cons (by simp) (TopoFrom.cons (by decide) (TopoFrom.nil _)))
      (by decide) { name := "b", depends_on := ["a"] } (by decide)
  · decide

/-! ## C3 — condition evaluation, literal coercion, null semantics -/

/-- C3 counterexample: the path `missing` does not resolve in the empty
result data, so the left-hand value is null — yet the comparison
`missing != x` evaluates to `true` (Python `None != "x"`), while the claim
says every comparison with a null left-hand value yields false. -/
theorem condition_null_ne_counterexample :
    resolvePath "missing" (JValue.obj []) = JValue.null ∧
    evaluate_condition "\x7b\x7b missing != x \x7d\x7d" (JValue.obj []) = true := by
  exact ⟨rfl, rfl⟩

/-- C3 amended: the evaluator coerces the literal to the runtime type of the
left-hand resolved value (bool through the `true/1/yes` test; number through
float parsing, keeping the raw string when parsing fails; string and every
other left-hand shape keep the raw string); a path that fails to resolve
yields null; and a comparison whose left-hand value is null yields false for
`==`, `>`, `<`, `>=`, `<=` but true for `!=`. -/
theorem condition_coercion_and_null (data : JValue) (path rightRaw s : String)
    (op : CmpOp) (b : Bool) (m : Rat) :
    (resolvePath path data = JValue.null →
      evalParsed (some (CondAst.cmp path op rightRaw)) data = decide (op = CmpOp.ne)) ∧
    (coerceLiteral (JValue.bool b) rightRaw =
      JValue.bool (pyLower rightRaw = "true" || pyLower rightRaw = "1" ||
        pyLower rightRaw = "yes")) ∧
    (∀ q : Rat, parseFloat? rightRaw = some q →
      coerceLiteral (JValue.num m) rightRaw = JValue.num q) ∧
    (parseFloat? rightRaw = none →
      coerceLiteral (JValue.num m) rightRaw = JValue.str rightRaw) ∧
    (coerceLiteral (JValue.str s) rightRaw = JValue.str rightRaw) ∧
    (coerceLiteral JValue.null rightRaw = JValue.str rightRaw) ∧
    (∀ (fields : List (String × JValue)) (part : String) (rest : List String),
      fields.lookup part = none →
        resolvePathParts (part :: rest) (JValue.obj fields) = JValue.null) := by
  refine ⟨?_, rfl, ?_, ?_, rfl, rfl, ?_⟩
  · intro h
    cases op <;>
      simp [evalParsed, h, coerceLiteral, pyEq, pyLt, pyLe]
  · intro q hq
    simp [coerceLiteral, hq]
  · intro hq
    simp [coerceLiteral, hq]
  · intro fields part rest h
    simp [resolvePathParts, h]

/-- C3 witness: concrete instances — an unresolved path compared with `<`
yields false and with `!=` yields true; the literal `x` does not parse as a
float, so against a numeric left-hand value it stays a string. -/
theorem condition_coercion_and_null_witness :
    evalParsed (some (CondAst.cmp "missing" CmpOp.lt "x")) (JValue.obj []) = false ∧
    evalParsed (some (CondAst.cmp "missing" CmpOp.ne "x")) (JValue.obj []) = true ∧
    coerceLiteral (JValue.num 1) "x" = JValue.str "x" := by
  refine ⟨?_, ?_, ?_⟩
  · exact (condition_coercion_and_null (JValue.obj []) "missing" "x" "" CmpOp.lt true 1).1 rfl
  · exact (condition_coercion_and_null (JValue.obj []) "missing" "x" "" CmpOp.ne true 1).1 rfl
  · exact (condition_coercion_and_null (JValue.obj []) "missing" "x" "" CmpOp.lt true 1).2.2.2.1 rfl

/-! ## C8 / C10 — prompt assembly -/

theorem core_valueError_nonempty {env : AssembleEnv} {blk : PromptBlock} {tone : String}
    {u : List String} (h : assemble_prompt_core env blk tone = .error (.valueError u)) :
    u ≠ [] := by
  unfold assemble_prompt_core at h
  cases hs : specialistText env blk with
  | error e =>
      rw [hs] at h
      simp at h
  | ok sp =>
      rw [hs] at h
      dsimp only at h
      by_cases he : (unresolvedTaskInputs (substFiles env
          (substTaskInput env.task_input blk.prompt))).isEmpty
      · rw [if_pos he] at h
        simp at h
      · rw [if_neg he] at h
        simp only [Except.error.injEq, AsmError.valueError.injEq] at h
        intro hc
        rw [← h, List.dedup_eq_nil] at hc
        rw [hc] at he
        exact he rfl

/-- C10: `assemble_prompt` raises only for unresolved task-input
placeholders: any other exception escaping the body (here: a failing
specialist load) is converted into the successful empty prompt, so the block
proceeds to the Provider call with `""` instead of failing; and every error
it does raise carries the non-empty list of unresolved field names. -/
theorem assemble_error_containment (env : AssembleEnv) (blk : PromptBlock)
    (tone : String) :
    (∀ m, assemble_prompt_core env blk tone = .error (.pyExc m) →
      assemble_prompt env blk tone = .ok "") ∧
    (∀ missing, assemble_prompt env blk tone = .error missing →
      missing ≠ [] ∧
        assemble_prompt_core env blk tone = .error (.valueError missing)) := by
  constructor
  · intro m h
    unfold assemble_prompt
    rw [h]
  · intro missing h
    unfold assemble_prompt at h
    cases hc : assemble_prompt_core env blk tone with
    | ok s =>
        rw [hc] at h
        simp at h
    | error e =>
        cases e with
        | valueError u =>
            rw [hc] at h
            simp only [Except.error.injEq] at h
            subst h
            exact ⟨core_valueError_nonempty hc, rfl⟩
        | pyExc m =>
            rw [hc] at h
            simp at h

/-- C10 witness: with a specialist loader that raises, assembly returns the
empty prompt instead of an error. -/
theorem assemble_error_containment_witness :
    assemble_prompt
      { task_input := [], specialists := fun _ => .error "file not found",
        block_output := fun _ => none, task_output := fun _ => none,
        workflow_file := fun _ => none }
      { agents := ["writer"] } "tone" = .ok "" := by
  exact (assemble_error_containment
    { task_input := [], specialists := fun _ => .error "file not found",
      block_output := fun _ => none, task_output := fun _ => none,
      workflow_file := fun _ => none }
    { agents := ["writer"] } "tone").1 "file not found" rfl

/-- C8: a non-task-input placeholder whose reference resolves in none of the
three sources survives both substitution passes unchanged (it is only
logged); when additionally no task-input placeholder survives, assembly
succeeds with the rendered prompt — a missing file reference alone is never
an error; whereas any surviving `task.input.<field>` placeholder makes
assembly fail with the deduplicated list of missing field names. -/
theorem missing_refs_kept_unresolved_inputs_fail (env : AssembleEnv)
    (blk : PromptBlock) (tone : String) (inner : String) :
    (taskInputField inner = none →
      resolveFileRef env (pyStrip inner) = none →
      PromptPiece.placeholder inner ∈ blk.prompt →
      PromptPiece.placeholder inner ∈
        substFiles env (substTaskInput env.task_input blk.prompt)) ∧
    (∀ sp, specialistText env blk = .ok sp →
      (unresolvedTaskInputs (substFiles env
        (substTaskInput env.task_input blk.prompt))).isEmpty = true →
      assemble_prompt env blk tone =
        .ok (tone ++ "\n\n" ++ sp ++ "\n\n---\n\n" ++
          renderPieces (substFiles env (substTaskInput env.task_input blk.prompt)))) ∧
    (∀ sp, specialistText env blk = .ok sp →
      ¬ (unresolvedTaskInputs (substFiles env
        (substTaskInput env.task_input blk.prompt))).isEmpty = true →
      assemble_prompt env blk tone =
        .error (unresolvedTaskInputs (substFiles env
          (substTaskInput env.task_input blk.prompt))).dedup) := by
  refine ⟨?_, ?_, ?_⟩
  · intro h1 h2 hmem
    have hstep1 : (fun piece =>
        match piece with
        | PromptPiece.placeholder inner =>
            match taskInputField inner with
            | some f =>
                match env.task_input.lookup f with
                | some v => PromptPiece.text v
                | none => piece
            | none => piece
        | t => t) (PromptPiece.placeholder inner) = PromptPiece.placeholder inner := by
      simp [h1]
    have hm1 : PromptPiece.placeholder inner ∈
        substTaskInput env.task_input blk.prompt := by
      unfold substTaskInput
      rw [← hstep1]
      exact List.mem_map_of_mem _ hmem
    have hstep2 : (fun piece =>
        match piece with
        | PromptPiece.placeholder inner =>
            match resolveFileRef env (pyStrip inner) with
            | some (.ok s) => PromptPiece.text s
            | some (.error _) => piece
            | none => piece
        | t => t) (PromptPiece.placeholder inner) = PromptPiece.placeholder inner := by
      simp [h2]
    unfold substFiles
    rw [← hstep2]
    exact List.mem_map_of_mem _ hm1
  · intro sp hs he
    unfold assemble_prompt assemble_prompt_core
    rw [hs]
    dsimp only
    rw [if_pos he]
  · intro sp hs he
    unfold assemble_prompt assemble_prompt_core
    rw [hs]
    dsimp only
    rw [if_neg he]

/-- C8 witness: the placeholder ` report.json ` resolves nowhere and survives
both passes; and a prompt with a surviving `task.input.missing` placeholder
fails with exactly `["missing"]`. -/
theorem missing_refs_kept_unresolved_inputs_fail_witness :
    (PromptPiece.placeholder " report.json " ∈
      substFiles
        { task_input := [("topic", "cats")], specialists := fun _ => .ok "SPEC",
          block_output := fun _ => none, task_output := fun _ => none,
          workflow_file := fun _ => none }
        (substTaskInput [("topic", "cats")]
          [PromptPiece.placeholder " report.json ", PromptPiece.text "hi"])) ∧
    assemble_prompt
      { task_input := [], specialists := fun _ => .ok "SPEC",
        block_output := fun _ => none, task_output := fun _ => none,
        workflow_file := fun _ => none }
      { prompt := [PromptPiece.placeholder "task.input.missing"] } "" =
      .error ["missing"] := by
  constructor
  · exact (missing_refs_kept_unresolved_inputs_fail
      { task_input := [("topic", "cats")], specialists := fun _ => .ok "SPEC",
        block_output := fun _ => none, task_output := fun _ => none,
        workflow_file := fun _ => none }
      { prompt := [PromptPiece.placeholder " report.json ", PromptPiece.text "hi"] }
      "" " report.json ").1 rfl rfl (by decide)
  · exact ((missing_refs_kept_unresolved_inputs_fail
      { task_input := [], specialists := fun _ => .ok "SPEC",
        block_output := fun _ => none, task_output := fun _ => none,
        workflow_file := fun _ => none }
      { prompt := [PromptPiece.placeholder "task.input.missing"] } ""
      "x").2.2 "" rfl (by decide)).trans rfl

/-! ## C1 — resume invalidation cascade -/

theorem addNew_subset_visited : ∀ (ds v q : List String) (x : String),
    x ∈ v → x ∈ (addNewDependents v q ds).1 := by
  intro ds
  induction ds with
  | nil => intro v q x hx; simpa [addNewDependents] using hx
  | cons d ds ih =>
      intro v q x hx
      simp only [addNewDependents]
      split
      · exact ih v q x hx
      · exact ih (v ++ [d]) (q ++ [d]) x (by simp [hx])

theorem addNew_subset_queue : ∀ (ds v q : List String) (x : String),
    x ∈ q → x ∈ (addNewDependents v q ds).2 := by
  intro ds
  induction ds with
  | nil => intro v q x hx; simpa [addNewDependents] using hx
  | cons d ds ih =>
      intro v q x hx
      simp only [addNewDependents]
      split
      · exact ih v q x hx
      · exact ih (v ++ [d]) (q ++ [d]) x (by simp [hx])

theorem addNew_ds_visited : ∀ (ds v q : List String) (d : String),
    d ∈ ds → d ∈ (addNewDependents v q ds).1 := by
  intro ds
  induction ds with
  | nil => intro v q d hd; simp at hd
  | cons a ds ih =>
      intro v q d hd
      rw [List.mem_cons] at hd
      simp only [addNewDependents]
      split
      · rcases hd with rfl | hd
        · exact addNew_subset_visited ds v q d (by assumption)
        · exact ih v q d hd
      · rcases hd with rfl | hd
        · exact addNew_subset_visited ds (v ++ [d]) (q ++ [d]) d (by simp)
        · exact ih (v ++ [a]) (q ++ [a]) d hd

theorem addNew_visited_src : ∀ (ds v q : List String) (x : String),
    x ∈ (addNewDependents v q ds).1 → x ∈ v ∨ x ∈ ds := by
  intro ds
  induction ds with
  | nil => intro v q x hx; left; simpa [addNewDependents] using hx
  | cons d ds ih =>
      intro v q x hx
      simp only [addNewDependents] at hx
      split at hx
      · rcases ih v q x hx with h | h
        · exact Or.inl h
        · exact Or.inr (List.mem_cons_of_mem _ h)
      · rcases ih (v ++ [d]) (q ++ [d]) x hx with h | h
        · rw [List.mem_append] at h
          rcases h with h | h
          · exact Or.inl h
          · simp only [List.mem_singleton] at h
            exact Or.inr (h ▸ List.mem_cons_self _ _)
        · exact Or.inr (List.mem_cons_of_mem _ h)

theorem addNew_queue_src : ∀ (ds v q : List String) (x : String),
    x ∈ (addNewDependents v q ds).2 → x ∈ q ∨ x ∈ ds := by
  intro ds
  induction ds with
  | nil => intro v q x hx; left; simpa [addNewDependents] using hx
  | cons d ds ih =>
      intro v q x hx
      simp only [addNewDependents] at hx
      split at hx
      · rcases ih v q x hx with h | h
        · exact Or.inl h
        · exact Or.inr (List.mem_cons_of_mem _ h)
      · rcases ih (v ++ [d]) (q ++ [d]) x hx with h | h
        · rw [List.mem_append] at h
          rcases h with h | h
          · exact Or.inl h
          · simp only [List.mem_singleton] at h
            exact Or.inr (h ▸ List.mem_cons_self _ _)
        · exact Or.inr (List.mem_cons_of_mem _ h)

theorem addNew_visited_split : ∀ (ds v q : List String) (x : String),
    x ∈ (addNewDependents v q ds).1 → x ∈ v ∨ x ∈ (addNewDependents v q ds).2 := by
  intro ds
  induction ds with
  | nil => intro v q x hx; left; simpa [addNewDependents] using hx
  | cons d ds ih =>
      intro v q x hx
      simp only [addNewDependents] at hx ⊢
      split at hx <;> rename_i hd
      · rw [if_pos hd]
        exact ih v q x hx
      · rw [if_neg hd]
        rcases ih (v ++ [d]) (q ++ [d]) x hx with h | h
        · rw [List.mem_append] at h
          rcases h with h | h
          · exact Or.inl h
          · simp only [List.mem_singleton] at h
            subst h
            exact Or.inr (addNew_subset_queue ds (v ++ [x]) (q ++ [x]) x (by simp))
        · exact Or.inr h

theorem filter_not_mem_mono : ∀ (l v w : List String), (∀ x ∈ v, x ∈ w) →
    (l.filter (fun n => !decide (n ∈ w))).length ≤
      (l.filter (fun n => !decide (n ∈ v))).length := by
  intro l v w hsub
  induction l with
  | nil => simp
  | cons a l ih =>
      simp only [List.filter_cons]
      by_cases hv : a ∈ v
      · have hw : a ∈ w := hsub a hv
        simp only [hv, hw, decide_True, Bool.not_true, Bool.false_eq_true, if_false]
        exact ih
      · by_cases hw : a ∈ w
        · simp only [hv, hw, decide_True, decide_False, Bool.not_true,
            Bool.not_false, Bool.false_eq_true, if_false, if_true, List.length_cons]
          omega
        · simp only [hv, hw, decide_False, Bool.not_false, if_true, List.length_cons]
          omega

theorem unvisited_decrease : ∀ (l v : List String) (d : String), d ∈ l → ¬ d ∈ v →
    unvisitedCount l (v ++ [d]) + 1 ≤ unvisitedCount l v := by
  intro l
  induction l with
  | nil => intro v d hd; simp at hd
  | cons a l ih =>
      intro v d hd hdv
      rw [List.mem_cons] at hd
      simp only [unvisitedCount, List.filter_cons]
      by_cases had : a = d
      · subst had
        have h1 : a ∈ v ++ [a] := by simp
        have hmono := filter_not_mem_mono l v (v ++ [a]) (fun x hx => by simp [hx])
        simp only [h1, hdv, decide_True, decide_False, Bool.not_true, Bool.not_false,
          Bool.false_eq_true, if_false, if_true, List.length_cons]
        omega
      · have hd' : d ∈ l := by
          rcases hd with h | h
          · exact absurd h.symm had
          · exact h
        have hmem : a ∈ v ++ [d] ↔ a ∈ v := by
          simp only [List.mem_append, List.mem_singleton]
          constructor
          · rintro (h | h)
            · exact h
            · exact absurd h had
          · exact Or.inl
        have hrec := ih v d hd' hdv
        simp only [unvisitedCount] at hrec
        by_cases hav : a ∈ v
        · simp only [hav, hmem.mpr hav, decide_True, Bool.not_true,
            Bool.false_eq_true, if_false]
          omega
        · have hav2 : ¬ a ∈ v ++ [d] := fun h => hav (hmem.mp h)
          simp only [hav, hav2, decide_False, Bool.not_false, if_true,
            List.length_cons]
          omega

theorem addNew_measure : ∀ (names ds v q : List String), (∀ d ∈ ds, d ∈ names) →
    unvisitedCount names (addNewDependents v q ds).1 +
        (addNewDependents v q ds).2.length ≤
      unvisitedCount names v + q.length := by
  intro names ds
  induction ds with
  | nil => intro v q _; simp [addNewDependents]
  | cons d ds ih =>
      intro v q hds
      simp only [addNewDependents]
      split <;> rename_i hd
      · exact ih v q (fun x hx => hds x (List.mem_cons_of_mem _ hx))
      · have h1 := ih (v ++ [d]) (q ++ [d]) (fun x hx => hds x (List.mem_cons_of_mem _ hx))
        have h2 := unvisited_decrease names v d (hds d (List.mem_cons_self _ _)) hd
        simp only [List.length_append, List.length_singleton] at h1
        omega

theorem cascadeAux_sound (deps : String → List String) (P : String → Prop)
    (hstep : ∀ y d, P y → d ∈ deps y → P d) :
    ∀ (fuel : Nat) (q v : List String), (∀ x ∈ v, P x) → (∀ x ∈ q, P x) →
    ∀ x ∈ cascadeAux deps fuel q v, P x := by
  intro fuel
  induction fuel with
  | zero => intro q v hv _ x hx; exact hv x hx
  | succ fuel ih =>
      intro q v hv hq x hx
      cases q with
      | nil => exact hv x hx
      | cons current rest =>
          simp only [cascadeAux] at hx
          refine ih _ _ ?_ ?_ x hx
          · intro y hy
            rcases addNew_visited_src (deps current) v rest y hy with h | h
            · exact hv y h
            · exact hstep current y (hq current (List.mem_cons_self _ _)) h
          · intro y hy
            rcases addNew_queue_src (deps current) v rest y hy with h | h
            · exact hq y (List.mem_cons_of_mem _ h)
            · exact hstep current y (hq current (List.mem_cons_self _ _)) h

theorem cascadeAux_complete (deps : String → List String) (names : List String)
    (hrange : ∀ y d, d ∈ deps y → d ∈ names) :
    ∀ (fuel : Nat) (q v : List String),
    unvisitedCount names v + q.length ≤ fuel →
    (∀ x ∈ q, x ∈ v) →
    (∀ x ∈ v, x ∈ q ∨ ∀ d ∈ deps x, d ∈ v) →
    (∀ x ∈ v, x ∈ cascadeAux deps fuel q v) ∧
    (∀ x ∈ cascadeAux deps fuel q v, ∀ d ∈ deps x, d ∈ cascadeAux deps fuel q v) := by
  intro fuel
  induction fuel with
  | zero =>
      intro q v hfuel _ hinv
      have hq0 : q = [] := List.length_eq_zero.mp (by omega)
      subst hq0
      refine ⟨fun x hx => hx, fun x hx d hd => ?_⟩
      rcases hinv x hx with h | h
      · simp at h
      · exact h d hd
  | succ fuel ih =>
      intro q v hfuel hqv hinv
      cases q with
      | nil =>
          refine ⟨fun x hx => hx, fun x hx d hd => ?_⟩
          rcases hinv x hx with h | h
          · simp at h
          · exact h d hd
      | cons current rest =>
          simp only [cascadeAux]
          have hcur : current ∈ v := hqv current (List.mem_cons_self _ _)
          have hfuel' : unvisitedCount names
              (addNewDependents v rest (deps current)).1 +
              (addNewDependents v rest (deps current)).2.length ≤ fuel := by
            have := addNew_measure names (deps current) v rest
              (fun d hd => hrange current d hd)
            simp only [List.length_cons] at hfuel
            omega
          have hqv' : ∀ x ∈ (addNewDependents v rest (deps current)).2,
              x ∈ (addNewDependents v rest (deps current)).1 := by
            intro x hx
            rcases addNew_queue_src (deps current) v rest x hx with h | h
            · exact addNew_subset_visited _ _ _ x (hqv x (List.mem_cons_of_mem _ h))
            · exact addNew_ds_visited _ _ _ x h
          have hinv' : ∀ x ∈ (addNewDependents v rest (deps current)).1,
              x ∈ (addNewDependents v rest (deps current)).2 ∨
              ∀ d ∈ deps x, d ∈ (addNewDependents v rest (deps current)).1 := by
            intro x hx
            rcases addNew_visited_split (deps current) v rest x hx with hxv | hxq
            · rcases hinv x hxv with hxc | hclosed
              · rw [List.mem_cons] at hxc
                rcases hxc with rfl | hxr
                · right
                  intro d hd
                  exact addNew_ds_visited _ _ _ d hd
                · left
                  exact addNew_subset_queue _ _ _ x (by exact hxr)
              · right
                intro d hd
                exact addNew_subset_visited _ _ _ d (hclosed d hd)
            · exact Or.inl hxq
          obtain ⟨h1, h2⟩ := ih _ _ hfuel' hqv' hinv'
          refine ⟨fun x hx => h1 x (addNew_subset_visited _ _ _ x hx), h2⟩

theorem dependentsOf_range (blocks : List BlockConf) :
    ∀ y d, d ∈ dependentsOf blocks y → d ∈ blockNames blocks := by
  intro y d hd
  simp only [dependentsOf, List.mem_map, List.mem_filter] at hd
  obtain ⟨b, ⟨hb, _⟩, rfl⟩ := hd
  exact List.mem_map_of_mem _ hb

theorem cascade_reach_complete (blocks : List BlockConf) (failed : List String) :
    ∀ f ∈ failed, ∀ x, ReachDep blocks f x →
      x ∈ cascade_invalidation blocks failed := by
  intro f hf x hx
  have hfuel : unvisitedCount (blockNames blocks) failed + failed.length ≤
      failed.length + blocks.length := by
    have h1 : unvisitedCount (blockNames blocks) failed ≤ (blockNames blocks).length :=
      List.length_filter_le _ _
    have h2 : (blockNames blocks).length = blocks.length := List.length_map _ _
    omega
  obtain ⟨h1, h2⟩ := cascadeAux_complete (dependentsOf blocks) (blockNames blocks)
    (dependentsOf_range blocks) (failed.length + blocks.length) failed failed hfuel
    (fun x hx => hx) (fun x hx => Or.inl hx)
  unfold cascade_invalidation
  induction hx with
  | refl => exact h1 f hf
  | step _ hz ihy => exact h2 _ ihy _ hz

theorem cascade_reach_sound (blocks : List BlockConf) (failed : List String) :
    ∀ x ∈ cascade_invalidation blocks failed, ∃ f ∈ failed, ReachDep blocks f x := by
  intro x hx
  unfold cascade_invalidation at hx
  exact cascadeAux_sound (dependentsOf blocks)
    (fun x => ∃ f ∈ failed, ReachDep blocks f x)
    (fun y d hy hd => by
      obtain ⟨f, hf, hr⟩ := hy
      exact ⟨f, hf, ReachDep.step hr hd⟩)
    _ _ _ (fun x hx => ⟨x, hx, ReachDep.refl x⟩)
    (fun x hx => ⟨x, hx, ReachDep.refl x⟩) x hx

theorem reach_of_no_edges {blocks : List BlockConf} {x a : String}
    (h : ReachDep blocks x a) (hno : ∀ y, a ∉ dependentsOf blocks y) : a = x := by
  cases h with
  | refl => rfl
  | step hy hz => exact absurd hz (hno _)

theorem initSecondPass_fold (existing : List (String × String)) (nr : List String)
    (phases : List (String × Nat)) (now : Rat) (uidOf : String → String) :
    ∀ (blocks : List BlockConf) (acc : List String × List (String × Process)),
    blocks.foldl (initSecondPassStep existing nr phases now uidOf) acc =
      (acc.1 ++ (blocks.filter (fun b =>
          decide (existing.lookup b.name = some "done" ∧ b.name ∉ nr))).map
            (fun b => b.name),
       acc.2 ++ (blocks.filter (fun b =>
          !decide (existing.lookup b.name = some "done" ∧ b.name ∉ nr))).map
            (fun b => (b.name, freshWaitingRecord phases now uidOf b))) := by
  intro blocks
  induction blocks with
  | nil => intro acc; simp
  | cons b bs ih =>
      intro acc
      simp only [List.foldl_cons]
      by_cases hc : existing.lookup b.name = some "done" ∧ b.name ∉ nr
      · have hstep : initSecondPassStep existing nr phases now uidOf acc b =
            (acc.1 ++ [b.name], acc.2) := by
          simp [initSecondPassStep, hc]
        rw [hstep, ih]
        simp [List.filter_cons, hc]
      · have hstep : initSecondPassStep existing nr phases now uidOf acc b =
            (acc.1, acc.2 ++ [(b.name, freshWaitingRecord phases now uidOf b)]) := by
          simp [initSecondPassStep, hc]
        rw [hstep, ih]
        have hc' : ¬ List.lookup b.name existing = some "done" ∨ b.name ∈ nr := by
          rcases not_and_or.mp hc with h | h
          · exact Or.inl h
          · exact Or.inr (not_not.mp h)
        simp [List.filter_cons, hc, hc']

/-- C1: on resume, every block reachable in the dependents graph from a
persisted `failed`/`running` record is invalidated — its outputs directory
is cleaned and (when it is a block of the document) a record with status
`waiting`, progress 0 and `exit_code` null is re-created through
`save_process` — while every `done` record not reachable from any
`failed`/`running` record is preserved: marked completed, its outputs kept,
and no record re-created for it. -/
theorem resume_cascade_invalidation (blocks : List BlockConf)
    (existing : List (String × String)) (now : Rat) (uidOf : String → String)
    (hnodup : (blockNames blocks).Nodup) :
    (∀ f ∈ failedBlocks existing, ∀ x, ReachDep blocks f x →
      x ∈ (initialize_all_processes blocks existing now uidOf).cleaned ∧
      (∀ b ∈ blocks, b.name = x →
        ∃ p, (x, p) ∈ (initialize_all_processes blocks existing now uidOf).saved ∧
          p.status = "waiting" ∧ p.progress = 0 ∧ p.exit_code = none)) ∧
    (∀ b ∈ blocks, existing.lookup b.name = some "done" →
      (∀ f ∈ failedBlocks existing, ¬ ReachDep blocks f b.name) →
      b.name ∈ (initialize_all_processes blocks existing now uidOf).completed ∧
      b.name ∉ (initialize_all_processes blocks existing now uidOf).cleaned ∧
      ∀ p, (b.name, p) ∉ (initialize_all_processes blocks existing now uidOf).saved) := by
  have hcleaned : (initialize_all_processes blocks existing now uidOf).cleaned =
      (if (failedBlocks existing).isEmpty then []
       else cascade_invalidation blocks (failedBlocks existing)) := rfl
  have hsaved : (initialize_all_processes blocks existing now uidOf).saved =
      (blocks.filter (fun bb =>
        !decide (existing.lookup bb.name = some "done" ∧ bb.name ∉
          (if (failedBlocks existing).isEmpty then []
           else cascade_invalidation blocks (failedBlocks existing))))).map
        (fun bb => (bb.name, freshWaitingRecord (computePhases blocks) now uidOf bb)) := by
    have h := initSecondPass_fold existing
      (if (failedBlocks existing).isEmpty then []
       else cascade_invalidation blocks (failedBlocks existing))
      (computePhases blocks) now uidOf blocks ([], [])
    have h2 : (initialize_all_processes blocks existing now uidOf).saved =
        (blocks.foldl (initSecondPassStep existing
          (if (failedBlocks existing).isEmpty then []
           else cascade_invalidation blocks (failedBlocks existing))
          (computePhases blocks) now uidOf) ([], [])).2 := rfl
    rw [h2, h]
    simp
  have hcompleted : (initialize_all_processes blocks existing now uidOf).completed =
      (blocks.filter (fun bb =>
        decide (existing.lookup bb.name = some "done" ∧ bb.name ∉
          (if (failedBlocks existing).isEmpty then []
           else cascade_invalidation blocks (failedBlocks existing))))).map
        (fun bb => bb.name) := by
    have h := initSecondPass_fold existing
      (if (failedBlocks existing).isEmpty then []
       else cascade_invalidation blocks (failedBlocks existing))
      (computePhases blocks) now uidOf blocks ([], [])
    have h2 : (initialize_all_processes blocks existing now uidOf).completed =
        (blocks.foldl (initSecondPassStep existing
          (if (failedBlocks existing).isEmpty then []
           else cascade_invalidation blocks (failedBlocks existing))
          (computePhases blocks) now uidOf) ([], [])).1 := rfl
    rw [h2, h]
    simp
  constructor
  · intro f hf x hx
    have hne : ((failedBlocks existing).isEmpty) = false := by
      cases hE : failedBlocks existing
      · rw [hE] at hf
        simp at hf
      · rfl
    have hxNR : x ∈ cascade_invalidation blocks (failedBlocks existing) :=
      cascade_reach_complete blocks (failedBlocks existing) f hf x hx
    have hNReq : (if (failedBlocks existing).isEmpty then []
        else cascade_invalidation blocks (failedBlocks existing)) =
        cascade_invalidation blocks (failedBlocks existing) := by
      rw [hne]
      simp
    refine ⟨by rw [hcleaned, hNReq]; exact hxNR, ?_⟩
    intro b hb hbx
    subst hbx
    have hbf : b ∈ blocks.filter (fun bb =>
        !decide (existing.lookup bb.name = some "done" ∧ bb.name ∉
          (if (failedBlocks existing).isEmpty then []
           else cascade_invalidation blocks (failedBlocks existing)))) := by
      rw [List.mem_filter]
      refine ⟨hb, ?_⟩
      simp only [Bool.not_eq_eq_eq_not, Bool.not_true, decide_eq_false_iff_not]
      rintro ⟨_, hnot⟩
      exact hnot (by rw [hNReq]; exact hxNR)
    exact ⟨freshWaitingRecord (computePhases blocks) now uidOf b,
      by rw [hsaved]; exact List.mem_map_of_mem _ hbf, rfl, rfl, rfl⟩
  · intro b hb hdone hnoreach
    have hbNR : b.name ∉ (if (failedBlocks existing).isEmpty then []
        else cascade_invalidation blocks (failedBlocks existing)) := by
      intro hc
      by_cases hne : (failedBlocks existing).isEmpty
      · rw [if_pos hne] at hc
        simp at hc
      · rw [if_neg hne] at hc
        obtain ⟨f, hf, hr⟩ := cascade_reach_sound blocks (failedBlocks existing) _ hc
        exact hnoreach f hf hr
    have hcond : (decide (existing.lookup b.name = some "done" ∧ b.name ∉
        (if (failedBlocks existing).isEmpty then []
         else cascade_invalidation blocks (failedBlocks existing)))) = true := by
      simp only [decide_eq_true_eq]
      exact ⟨hdone, hbNR⟩
    refine ⟨?_, by rw [hcleaned]; exact hbNR, ?_⟩
    · rw [hcompleted]
      exact List.mem_map_of_mem _ (List.mem_filter.mpr ⟨hb, hcond⟩)
    · intro p hp
      rw [hsaved] at hp
      rw [List.mem_map] at hp
      obtain ⟨bb, hbbf, hbbeq⟩ := hp
      rw [List.mem_filter] at hbbf
      obtain ⟨hbbmem, hbbcond⟩ := hbbf
      have hname : bb.name = b.name := congrArg Prod.fst hbbeq
      have hbbeqb : bb = b := by
        have hinj := List.inj_on_of_nodup_map (f := fun b : BlockConf => b.name)
          (by simpa [blockNames] using hnodup)
        exact hinj hbbmem hb hname
      rw [hbbeqb] at hbbcond
      rw [hcond] at hbbcond
      simp at hbbcond

/-- C1 witness: for the chain `a → b → c` with `a`/`c` recorded `done` and
`b` recorded `failed`, the theorem yields: `c` (downstream of `b`) is
cleaned and re-created `waiting`/0/null, while `a` (not reachable from `b`)
is preserved, marked completed, and not re-saved. -/
theorem resume_cascade_invalidation_witness :
    ("c" ∈ (initialize_all_processes
        [{ name := "a" }, { name := "b", depends_on := ["a"] },
         { name := "c", depends_on := ["b"] }]
        [("a", "done"), ("b", "failed"), ("c", "done")] 0 (fun _ => "u")).cleaned ∧
      (∃ p, ("c", p) ∈ (initialize_all_processes
        [{ name := "a" }, { name := "b", depends_on := ["a"] },
         { name := "c", depends_on := ["b"] }]
        [("a", "done"), ("b", "failed"), ("c", "done")] 0 (fun _ => "u")).saved ∧
        p.status = "waiting" ∧ p.progress = 0 ∧ p.exit_code = none)) ∧
    ("a" ∈ (initialize_all_processes
        [{ name := "a" }, { name := "b", depends_on := ["a"] },
         { name := "c", depends_on := ["b"] }]
        [("a", "done"), ("b", "failed"), ("c", "done")] 0 (fun _ => "u")).completed ∧
      "a" ∉ (initialize_all_processes
        [{ name := "a" }, { name := "b", depends_on := ["a"] },
         { name := "c", depends_on := ["b"] }]
        [("a", "done"), ("b", "failed"), ("c", "done")] 0 (fun _ => "u")).cleaned ∧
      ∀ p, ("a", p) ∉ (initialize_all_processes
        [{ name := "a" }, { name := "b", depends_on := ["a"] },
         { name := "c", depends_on := ["b"] }]
        [("a", "done"), ("b", "failed"), ("c", "done")] 0 (fun _ => "u")).saved) := by
  have hmain := resume_cascade_invalidation
    [{ name := "a" }, { name := "b", depends_on := ["a"] },
     { name := "c", depends_on := ["b"] }]
    [("a", "done"), ("b", "failed"), ("c", "done")] 0 (fun _ => "u") (by decide)
  constructor
  · have h := hmain.1 "b" (by decide) "c"
      (ReachDep.step (ReachDep.refl "b") (by decide))
    exact ⟨h.1, h.2 { name := "c", depends_on := ["b"] } (by decide) rfl⟩
  · refine hmain.2 { name := "a" } (by decide) (by decide) ?_
    intro f hf hr
    have hfb : f = "b" := by
      have : failedBlocks [("a", "done"), ("b", "failed"), ("c", "done")] = ["b"] := rfl
      rw [this] at hf
      simpa using hf
    subst hfb
    have hnostep : ∀ y, "a" ∉ dependentsOf
        [{ name := "a" }, { name := "b", depends_on := ["a"] },
         { name := "c", depends_on := ["b"] }] y := by
      intro y hy
      simp only [dependentsOf, List.mem_map, List.mem_filter] at hy
      obtain ⟨bb, ⟨hbbmem, hbbdep⟩, hbbname⟩ := hy
      fin_cases hbbmem
      · exact absurd hbbdep (by simp)
      · exact absurd hbbname (by decide)
      · exact absurd hbbname (by decide)
    have := reach_of_no_edges hr hnostep
    exact absurd this (by decide)

end Rein
